import Mathlib

/-!
Shallow embedding of `contrib/postgres_fdw/shippable.c` (the shippability
subsystem of `postgres_fdw`): the extension-list parser, the dependency
resolver, the per-object shippability cache with its full-flush invalidation
callback, and the public `is_shippable` entry point.  Two revisions of the
resolver are embedded: the current one (using `list_member_oid` and breaking
on the first match) and the earlier one (counting matches in `nresults`).

Modelling conventions: `Oid` is `Nat` (only identity comparison is used);
the `pg_depend` catalog is an explicit list of dependency rows; the hash
table backing the cache is an association list with unique keys; the
`ereport(ERROR)` control flow of the parser is an `Except`; the scan loop
is instrumented with a count of the tuples fetched so that short-circuiting
is provable, and `is_shippable` reports how many dependency scans
(`lookup_shippable` invocations) it performed.
-/

set_option autoImplicit false

/-- Object identifier, as in PostgreSQL: an opaque id compared only
by identity.  `Oid` is modelled as `Nat`. -/
abbrev Oid := Nat

/-- InvalidOid, the sentinel returned by `get_extension_oid` for a missing
extension. -/
def InvalidOid : Oid := 0

/-- Dependency type tag `DEPENDENCY_EXTENSION` from `catalog/pg_depend.h`:
the dependent object is a member of the extension named by the referenced
object. -/
def DEPENDENCY_EXTENSION : Char := 'e'

/-- One row of the `pg_depend` catalog, restricted to the fields the
resolver reads: `objid` (the dependent object, the scan key), `deptype`
(the dependency kind tag) and `refobjid` (the referenced object). -/
structure Form_pg_depend where
  objid : Oid
  deptype : Char
  refobjid : Oid
deriving DecidableEq, Repr

/-- The PostgreSQL list routine `list_member_oid`: scans the cells in
order and returns true on the first cell equal to `datum`. -/
def list_member_oid (l : List Oid) (datum : Oid) : Bool :=
  match l with
  | [] => false
  | x :: rest => if x = datum then true else list_member_oid rest datum

/-- The index scan `systable_beginscan` with scan key
`Anum_pg_depend_objid = objnumber`: the dependency rows whose dependent
side is the given object, in catalog order. -/
def depsFor (catalog : List Form_pg_depend) (objnumber : Oid) : List Form_pg_depend :=
  catalog.filter (fun d => d.objid = objnumber)

/-- The `while (HeapTupleIsValid(tup = systable_getnext(scan)))` loop of
the current `lookup_shippable`: sets `is_shippable` and breaks on the
first row whose `deptype` is `DEPENDENCY_EXTENSION` and whose `refobjid`
is a member of `extension_list`.  Instrumented with the number of tuples
fetched, so the first component is the boolean the loop computes and the
second is how many rows were examined. -/
def scanDeps (edges : List Form_pg_depend) (extension_list : List Oid) : Bool × Nat :=
  match edges with
  | [] => (false, 0)
  | d :: rest =>
    if d.deptype = DEPENDENCY_EXTENSION ∧ list_member_oid extension_list d.refobjid then
      (true, 1)
    else
      let r := scanDeps rest extension_list
      (r.1, r.2 + 1)

/-- The current `lookup_shippable` (the revision that uses
`list_member_oid`): returns false at once when no extensions are declared
(`extension_list == NIL`); otherwise scans the dependency rows of
`objnumber` and returns the boolean computed by the loop. -/
def lookup_shippable (objnumber : Oid) (extension_list : List Oid)
    (catalog : List Form_pg_depend) : Bool :=
  if extension_list = [] then false
  else (scanDeps (depsFor catalog objnumber) extension_list).1

namespace V0

/-- The scan loop of the earlier `lookup_shippable` revision: for each row
with `deptype == DEPENDENCY_EXTENSION` it walks the whole
`extension_list`, incrementing `nresults` once per equal cell, and breaks
out of the outer loop as soon as `nresults > 0`. -/
def scanDeps (edges : List Form_pg_depend) (extension_list : List Oid)
    (nresults : Nat) : Nat :=
  match edges with
  | [] => nresults
  | d :: rest =>
    let n :=
      if d.deptype = DEPENDENCY_EXTENSION then
        extension_list.foldl
          (fun acc extension_oid => if d.refobjid = extension_oid then acc + 1 else acc)
          nresults
      else nresults
    if n > 0 then n else V0.scanDeps rest extension_list n

/-- The earlier `lookup_shippable` revision
(`src/contrib/postgres_fdw/shippable.c`): same NIL guard, then runs the
counting loop starting from `nresults = 0` and returns `nresults > 0`. -/
def lookup_shippable (objnumber : Oid) (extension_list : List Oid)
    (catalog : List Form_pg_depend) : Bool :=
  if extension_list = [] then false
  else decide (V0.scanDeps (depsFor catalog objnumber) extension_list 0 > 0)

end V0

/-- ShippableCacheKey: the lookup key of the cache hash table.  The key is
the bare object id; there is no ExtensionSet component. -/
structure ShippableCacheKey where
  objid : Oid
deriving DecidableEq, Repr

/-- ShippableCacheEntry: a cache hash-table entry, the key followed by the
memoized boolean. -/
structure ShippableCacheEntry where
  key : ShippableCacheKey
  shippable : Bool
deriving DecidableEq, Repr

/-- The dynahash table `ShippableCacheHash`, modelled as an association
list of entries (one entry per key while the code preserves that
invariant). -/
abbrev ShippableCache := List ShippableCacheEntry

/-- Well-formedness of the hash table: each key occurs in at most one
entry, which is what dynahash guarantees for a real hash table. -/
def cacheWF (c : ShippableCache) : Prop :=
  (c.map (fun e => e.key)).Nodup

instance (c : ShippableCache) : Decidable (cacheWF c) := by
  unfold cacheWF; infer_instance

/-- hash_search with `HASH_FIND`: the entry stored under `k`, if any. -/
def cacheFind (c : ShippableCache) (k : ShippableCacheKey) : Option ShippableCacheEntry :=
  c.find? (fun e => e.key = k)

/-- hash_search with `HASH_ENTER` followed by the `entry->shippable = b`
store: if an entry with key `k` exists its payload is overwritten,
otherwise a fresh entry is added. -/
def cacheEnter (c : ShippableCache) (k : ShippableCacheKey) (b : Bool) : ShippableCache :=
  match cacheFind c k with
  | some _ => c.map (fun e => if e.key = k then ⟨k, b⟩ else e)
  | none => c ++ [⟨k, b⟩]

/-- hash_search with `HASH_REMOVE`: when an entry with key `k` exists it
is removed and the new table is returned, otherwise the search reports
`NULL` (here `none`). -/
def cacheRemove (c : ShippableCache) (k : ShippableCacheKey) : Option ShippableCache :=
  match cacheFind c k with
  | none => none
  | some _ => some (c.eraseP (fun e => decide (e.key = k)))

/-- The `hash_seq_init` / `hash_seq_search` loop of
`InvalidateShippableCacheCallback`: walks the enumerated entries,
removing each one from the evolving table; a removal that comes back
`NULL` raises `elog(ERROR, "hash table corrupted")`, modelled as an
`Except.error`. -/
def invalidateFlush : List ShippableCacheEntry → ShippableCache → Except String ShippableCache
  | [], cur => .ok cur
  | e :: rest, cur =>
    match cacheRemove cur e.key with
    | none => .error "hash table corrupted"
    | some cur2 => invalidateFlush rest cur2

/-- InvalidateShippableCacheCallback: flushes every cache entry when
`pg_foreign_data_wrapper` or `pg_foreign_server` metadata changes.  The
sequential scan enumerates the entries of the table itself. -/
def InvalidateShippableCacheCallback (c : ShippableCache) : Except String ShippableCache :=
  invalidateFlush c c

/-- is_shippable: the public entry point.  The cache argument is `none`
while `ShippableCacheHash` is still `NULL` (uninitialized) and `some c`
once the table exists.  Returns the boolean answer, the cache state after
the call, and how many dependency scans (`lookup_shippable` calls) were
performed.  The trailing `if (!entry)` of the C code is unreachable in
the miss branch because `HASH_ENTER` never returns `NULL`. -/
def is_shippable (objnumber : Oid) (extension_list : List Oid)
    (catalog : List Form_pg_depend) (cache : Option ShippableCache) :
    Bool × Option ShippableCache × Nat :=
  if extension_list = [] then (false, cache, 0)
  else
    let c := cache.getD []
    let key : ShippableCacheKey := ⟨objnumber⟩
    match cacheFind c key with
    | some entry => (entry.shippable, some c, 0)
    | none =>
      let shippable := lookup_shippable objnumber extension_list catalog
      (shippable, some (cacheEnter c key shippable), 1)

/-- ConfigurationError: the two `ereport(ERROR, ...)` exits of
`extractExtensionList`.  `MalformedList` models the
ERRCODE_SYNTAX_ERROR raised when `SplitIdentifierString` fails;
`UnknownExtension` models the error raised when a named extension is not
installed locally. -/
inductive ConfigurationError where
  | MalformedList (raw : String)
  | UnknownExtension (name : String)
deriving DecidableEq, Repr

/-- Splits a character sequence at every comma, `cur` holding the
characters of the token being accumulated. -/
def splitCommaAux : List Char → List Char → List String
  | [], cur => [String.mk cur]
  | c :: rest, cur =>
    if c = ',' then String.mk cur :: splitCommaAux rest []
    else splitCommaAux rest (cur ++ [c])

/-- Modelled from the spec: `SplitIdentifierString` is PostgreSQL core
code, not part of this repository; section 4.1 of the specification says
the parser splits the raw string on commas into candidate identifier
tokens and that malformed syntax fails.  An empty string yields the empty
token list; an empty token makes the split fail. -/
def SplitIdentifierString (raw : String) : Option (List String) :=
  if raw = "" then some []
  else
    let toks := splitCommaAux raw.toList []
    if toks.contains "" then none else some toks

/-- The `foreach(l, extlist)` loop of `extractExtensionList`:
`get_extension_oid` is the catalog name lookup (a parameter here;
`InvalidOid` means the extension is not installed), `extensionOids` is
`none` in validation-only mode (the C caller passes `NULL`) and `some
oids` otherwise, in which case an oid is appended only when
`list_member_oid` does not already find it. -/
def extensionListLoop (get_extension_oid : String → Oid) :
    List String → Option (List Oid) → Except ConfigurationError (Option (List Oid))
  | [], extensionOids => .ok extensionOids
  | extension_name :: rest, extensionOids =>
    let extension_oid := get_extension_oid extension_name
    if extension_oid = InvalidOid then
      .error (.UnknownExtension extension_name)
    else
      match extensionOids with
      | none => extensionListLoop get_extension_oid rest none
      | some oids =>
        extensionListLoop get_extension_oid rest
          (some (if list_member_oid oids extension_oid then oids else oids ++ [extension_oid]))

/-- extractExtensionList: parses a comma-separated extension-name string,
failing on a split error or an unknown extension, and otherwise
accumulating the deduplicated oid list. -/
def extractExtensionList (get_extension_oid : String → Oid) (extensionString : String)
    (extensionOids : Option (List Oid)) : Except ConfigurationError (Option (List Oid)) :=
  match SplitIdentifierString extensionString with
  | none => .error (.MalformedList extensionString)
  | some extlist => extensionListLoop get_extension_oid extlist extensionOids

/-- Specification-side description of first-occurrence deduplication: keep
the head and drop its later duplicates, recursively.  Used to state what
the accumulating loop of `extractExtensionList` computes. -/
def specDedupKeepFirst : List Oid → List Oid
  | [] => []
  | x :: xs => x :: (specDedupKeepFirst xs).filter (fun y => y ≠ x)

/-! ### Lemmas about the dependency resolver -/

theorem list_member_oid_eq_decide (l : List Oid) (x : Oid) :
    list_member_oid l x = decide (x ∈ l) := by
  induction l with
  | nil => simp [list_member_oid]
  | cons a rest ih =>
    by_cases h : a = x
    · simp [list_member_oid, h]
    · simp [list_member_oid, h, ih, Ne.symm h]

theorem list_member_oid_iff (l : List Oid) (x : Oid) :
    list_member_oid l x = true ↔ x ∈ l := by
  rw [list_member_oid_eq_decide]; exact decide_eq_true_iff

theorem mem_depsFor (catalog : List Form_pg_depend) (o : Oid) (d : Form_pg_depend) :
    d ∈ depsFor catalog o ↔ d ∈ catalog ∧ d.objid = o := by
  simp [depsFor]

theorem scanDeps_fst_iff (edges : List Form_pg_depend) (E : List Oid) :
    (scanDeps edges E).1 = true ↔
      ∃ d ∈ edges, d.deptype = DEPENDENCY_EXTENSION ∧ d.refobjid ∈ E := by
  induction edges with
  | nil => simp [scanDeps]
  | cons d rest ih =>
    by_cases h : d.deptype = DEPENDENCY_EXTENSION ∧ list_member_oid E d.refobjid = true
    · rw [scanDeps, if_pos ⟨h.1, h.2⟩]
      simp only [true_iff]
      exact ⟨d, List.mem_cons_self d rest, h.1, (list_member_oid_iff E d.refobjid).mp h.2⟩
    · rw [scanDeps, if_neg (by simpa using h)]
      simp only [ih, List.mem_cons]
      constructor
      · rintro ⟨x, hx, hprop⟩; exact ⟨x, Or.inr hx, hprop⟩
      · rintro ⟨x, hx | hx, hprop⟩
        · subst hx
          exact absurd ⟨hprop.1, (list_member_oid_iff E x.refobjid).mpr hprop.2⟩ h
        · exact ⟨x, hx, hprop⟩

theorem scanDeps_append_match (E : List Oid) (pre : List Form_pg_depend)
    (d : Form_pg_depend) (post : List Form_pg_depend)
    (hpre : ∀ x ∈ pre, ¬(x.deptype = DEPENDENCY_EXTENSION ∧ x.refobjid ∈ E))
    (h1 : d.deptype = DEPENDENCY_EXTENSION) (h2 : d.refobjid ∈ E) :
    scanDeps (pre ++ d :: post) E = (true, pre.length + 1) := by
  induction pre with
  | nil =>
    rw [List.nil_append, scanDeps, if_pos ⟨h1, (list_member_oid_iff E d.refobjid).mpr h2⟩]
    rfl
  | cons x rest ih =>
    have hx := hpre x (List.mem_cons_self x rest)
    have hcond : ¬(x.deptype = DEPENDENCY_EXTENSION ∧ list_member_oid E x.refobjid = true) := by
      intro hc; exact hx ⟨hc.1, (list_member_oid_iff E x.refobjid).mp hc.2⟩
    rw [List.cons_append, scanDeps, if_neg (by simpa using hcond),
      ih (fun y hy => hpre y (List.mem_cons_of_mem x hy))]
    simp [Nat.add_comm]

theorem scanDeps_no_match (E : List Oid) (edges : List Form_pg_depend)
    (h : ∀ x ∈ edges, ¬(x.deptype = DEPENDENCY_EXTENSION ∧ x.refobjid ∈ E)) :
    scanDeps edges E = (false, edges.length) := by
  induction edges with
  | nil => rfl
  | cons d rest ih =>
    have hd := h d (List.mem_cons_self d rest)
    have hcond : ¬(d.deptype = DEPENDENCY_EXTENSION ∧ list_member_oid E d.refobjid = true) := by
      intro hc; exact hd ⟨hc.1, (list_member_oid_iff E d.refobjid).mp hc.2⟩
    rw [scanDeps, if_neg (by simpa using hcond),
      ih (fun y hy => h y (List.mem_cons_of_mem d hy))]
    rfl

theorem lookup_shippable_iff (o : Oid) (E : List Oid) (catalog : List Form_pg_depend) :
    lookup_shippable o E catalog = true ↔
      ∃ d ∈ catalog, d.objid = o ∧ d.deptype = DEPENDENCY_EXTENSION ∧ d.refobjid ∈ E := by
  unfold lookup_shippable
  by_cases hE : E = []
  · subst hE; simp
  · rw [if_neg hE, scanDeps_fst_iff]
    constructor
    · rintro ⟨d, hd, hp⟩
      rw [mem_depsFor] at hd
      exact ⟨d, hd.1, hd.2, hp⟩
    · rintro ⟨d, hd, ho, hp⟩
      exact ⟨d, (mem_depsFor catalog o d).mpr ⟨hd, ho⟩, hp⟩

/-! ### Lemmas relating the two resolver revisions -/

theorem foldl_count_eq (E : List Oid) (r : Oid) (n : Nat) :
    E.foldl (fun acc x => if r = x then acc + 1 else acc) n
      = n + E.countP (fun x => decide (r = x)) := by
  induction E generalizing n with
  | nil => simp
  | cons a rest ih =>
    rw [List.foldl_cons, List.countP_cons]
    by_cases h : r = a
    · rw [if_pos h, ih]
      simp [h]
      omega
    · rw [if_neg h, ih]
      simp [h]

theorem v0_scanDeps_cons (d : Form_pg_depend) (rest : List Form_pg_depend)
    (E : List Oid) (nres : Nat) :
    V0.scanDeps (d :: rest) E nres =
      (if (if d.deptype = DEPENDENCY_EXTENSION
            then nres + E.countP (fun x => decide (d.refobjid = x))
            else nres) > 0
       then (if d.deptype = DEPENDENCY_EXTENSION
              then nres + E.countP (fun x => decide (d.refobjid = x))
              else nres)
       else V0.scanDeps rest E
        (if d.deptype = DEPENDENCY_EXTENSION
          then nres + E.countP (fun x => decide (d.refobjid = x))
          else nres)) := by
  by_cases hd : d.deptype = DEPENDENCY_EXTENSION
  · rw [V0.scanDeps]
    simp only [if_pos hd, foldl_count_eq]
  · rw [V0.scanDeps]
    simp only [if_neg hd]

theorem v0_scanDeps_pos_iff (edges : List Form_pg_depend) (E : List Oid) :
    (0 < V0.scanDeps edges E 0) ↔ (scanDeps edges E).1 = true := by
  induction edges with
  | nil => simp [V0.scanDeps, scanDeps]
  | cons d rest ih =>
    by_cases hd : d.deptype = DEPENDENCY_EXTENSION
    · by_cases hm : d.refobjid ∈ E
      · have hc : 0 < E.countP (fun x => decide (d.refobjid = x)) :=
          List.countP_pos_iff.mpr ⟨d.refobjid, hm, by simp⟩
        have hv : V0.scanDeps (d :: rest) E 0
            = E.countP (fun x => decide (d.refobjid = x)) := by
          rw [v0_scanDeps_cons]
          simp only [if_pos hd, Nat.zero_add]
          rw [if_pos hc]
        have hs : scanDeps (d :: rest) E = (true, 1) := by
          rw [scanDeps, if_pos ⟨hd, (list_member_oid_iff E d.refobjid).mpr hm⟩]
        rw [hv, hs]
        simpa using hc
      · have hc : E.countP (fun x => decide (d.refobjid = x)) = 0 := by
          rw [List.countP_eq_zero]
          intro a ha
          simp only [decide_eq_true_eq]
          intro hr
          exact hm (hr ▸ ha)
        have hv : V0.scanDeps (d :: rest) E 0 = V0.scanDeps rest E 0 := by
          rw [v0_scanDeps_cons]
          simp [hd, hc]
        have hs : scanDeps (d :: rest) E = ((scanDeps rest E).1, (scanDeps rest E).2 + 1) := by
          rw [scanDeps, if_neg]
          intro hcc
          exact hm ((list_member_oid_iff E d.refobjid).mp hcc.2)
        rw [hv, hs]
        exact ih
    · have hv : V0.scanDeps (d :: rest) E 0 = V0.scanDeps rest E 0 := by
        rw [v0_scanDeps_cons]
        simp [hd]
      have hs : scanDeps (d :: rest) E = ((scanDeps rest E).1, (scanDeps rest E).2 + 1) := by
        rw [scanDeps, if_neg]
        intro hcc
        exact hd hcc.1
      rw [hv, hs]
      exact ih

/-- C1: `lookup_shippable o E catalog` returns true exactly when the
catalog records a dependency row with dependent `o`, kind
`DEPENDENCY_EXTENSION` and referenced extension a member of `E` (pure
identity membership, so the answer is invariant under permutation of
`E`); the scan stops on the row of the first match (having fetched only
the non-matching prefix plus that row, regardless of what follows), and
when no row matches it returns false after fetching every dependency row
of `o` — in particular when `o` has no extension-membership row at
all. -/
theorem lookup_shippable_spec (o : Oid) (E : List Oid) (catalog : List Form_pg_depend) :
    (lookup_shippable o E catalog = true ↔
      ∃ d ∈ catalog, d.objid = o ∧ d.deptype = DEPENDENCY_EXTENSION ∧ d.refobjid ∈ E)
    ∧ (∀ E2, E.Perm E2 →
        lookup_shippable o E catalog = lookup_shippable o E2 catalog)
    ∧ (∀ pre d post,
        (∀ x ∈ pre, ¬(x.deptype = DEPENDENCY_EXTENSION ∧ x.refobjid ∈ E)) →
        d.deptype = DEPENDENCY_EXTENSION → d.refobjid ∈ E →
        scanDeps (pre ++ d :: post) E = (true, pre.length + 1))
    ∧ ((∀ x ∈ depsFor catalog o, ¬(x.deptype = DEPENDENCY_EXTENSION ∧ x.refobjid ∈ E)) →
        lookup_shippable o E catalog = false ∧
        scanDeps (depsFor catalog o) E = (false, (depsFor catalog o).length)) := by
  refine ⟨lookup_shippable_iff o E catalog, ?_, ?_, ?_⟩
  · intro E2 hperm
    have h1 := lookup_shippable_iff o E catalog
    have h2 := lookup_shippable_iff o E2 catalog
    have hiff : lookup_shippable o E catalog = true ↔ lookup_shippable o E2 catalog = true := by
      rw [h1, h2]
      constructor
      · rintro ⟨d, hd, ho, ht, hm⟩; exact ⟨d, hd, ho, ht, hperm.mem_iff.mp hm⟩
      · rintro ⟨d, hd, ho, ht, hm⟩; exact ⟨d, hd, ho, ht, hperm.mem_iff.mpr hm⟩
    exact Bool.coe_iff_coe.mp hiff
  · intro pre d post hpre h1 h2
    exact scanDeps_append_match E pre d post hpre h1 h2
  · intro hno
    have hscan := scanDeps_no_match E (depsFor catalog o) hno
    refine ⟨?_, hscan⟩
    unfold lookup_shippable
    by_cases hE : E = []
    · rw [if_pos hE]
    · rw [if_neg hE, hscan]

/-- Witness for C1 at concrete inputs: object 7 with a membership row for
extension 3 is shippable under the declared set `[3, 4]`, the answer is
the same under the permuted set `[4, 3]`, the scan fetches exactly one
row when the first row matches, and an object whose only membership row
references an undeclared extension resolves to false. -/
theorem lookup_shippable_spec_witness :
    lookup_shippable 7 [3, 4] [Form_pg_depend.mk 7 'e' 3] = true
    ∧ lookup_shippable 7 [4, 3] [Form_pg_depend.mk 7 'e' 3]
        = lookup_shippable 7 [3, 4] [Form_pg_depend.mk 7 'e' 3]
    ∧ scanDeps ([] ++ Form_pg_depend.mk 7 'e' 3 :: []) [3, 4] = (true, 0 + 1)
    ∧ lookup_shippable 9 [5] [Form_pg_depend.mk 9 'e' 3] = false := by
  have h := lookup_shippable_spec 7 [3, 4] [Form_pg_depend.mk 7 'e' 3]
  have h9 := lookup_shippable_spec 9 [5] [Form_pg_depend.mk 9 'e' 3]
  refine ⟨h.1.mpr ⟨Form_pg_depend.mk 7 'e' 3, by simp, rfl, rfl, by simp⟩,
    (h.2.1 [4, 3] (by decide)).symm,
    h.2.2.1 [] (Form_pg_depend.mk 7 'e' 3) [] (by simp) rfl (by simp),
    (h9.2.2.2 (by decide)).1⟩

/-- C10: the two revisions of `lookup_shippable` are extensionally equal —
for every object, declared extension list and catalog of dependency rows,
the earlier revision (which counts matches in `nresults` and tests the
counter after each row) and the current revision (which uses
`list_member_oid` and breaks on the first match) return the same
boolean. -/
theorem v0_lookup_shippable_eq_lookup_shippable (o : Oid) (E : List Oid)
    (catalog : List Form_pg_depend) :
    V0.lookup_shippable o E catalog = lookup_shippable o E catalog := by
  unfold V0.lookup_shippable lookup_shippable
  by_cases hE : E = []
  · rw [if_pos hE, if_pos hE]
  · rw [if_neg hE, if_neg hE]
    have h := v0_scanDeps_pos_iff (depsFor catalog o) E
    cases hs : (scanDeps (depsFor catalog o) E).1 with
    | true => exact decide_eq_true (h.mpr hs)
    | false =>
      apply decide_eq_false
      intro hpos
      exact absurd (h.mp hpos) (by simp [hs])

/-! ### Lemmas about the shippability cache -/

theorem cacheFind_cons (e : ShippableCacheEntry) (rest : ShippableCache)
    (k : ShippableCacheKey) :
    cacheFind (e :: rest) k = if e.key = k then some e else cacheFind rest k := by
  by_cases h : e.key = k
  · simp [cacheFind, List.find?_cons, h]
  · simp [cacheFind, List.find?_cons, h]

theorem cacheFind_append_single (c : ShippableCache) (k : ShippableCacheKey) (b : Bool)
    (h : cacheFind c k = none) :
    cacheFind (c ++ [ShippableCacheEntry.mk k b]) k = some (ShippableCacheEntry.mk k b) := by
  induction c with
  | nil => simp [cacheFind, List.find?]
  | cons e rest ih =>
    rw [cacheFind_cons] at h
    rw [List.cons_append, cacheFind_cons]
    by_cases he : e.key = k
    · rw [if_pos he] at h; cases h
    · rw [if_neg he] at h
      rw [if_neg he]
      exact ih h

theorem cacheFind_map_update (c : ShippableCache) (k : ShippableCacheKey) (b : Bool)
    (h : cacheFind c k ≠ none) :
    cacheFind (c.map (fun e => if e.key = k then ShippableCacheEntry.mk k b else e)) k
      = some (ShippableCacheEntry.mk k b) := by
  induction c with
  | nil => simp [cacheFind] at h
  | cons e rest ih =>
    rw [List.map_cons]
    by_cases he : e.key = k
    · rw [if_pos he, cacheFind_cons, if_pos rfl]
    · rw [if_neg he, cacheFind_cons, if_neg he]
      apply ih
      rw [cacheFind_cons, if_neg he] at h
      exact h

theorem cacheFind_cacheEnter (c : ShippableCache) (k : ShippableCacheKey) (b : Bool) :
    cacheFind (cacheEnter c k b) k = some (ShippableCacheEntry.mk k b) := by
  rw [cacheEnter]
  cases h : cacheFind c k with
  | none => exact cacheFind_append_single c k b h
  | some e => exact cacheFind_map_update c k b (by rw [h]; simp)

theorem cacheEnter_key_entries (c : ShippableCache) (k : ShippableCacheKey) (b : Bool) :
    ∀ e ∈ cacheEnter c k b, e.key = k → e = ShippableCacheEntry.mk k b := by
  rw [cacheEnter]
  cases h : cacheFind c k with
  | none =>
    intro e he hk
    rcases List.mem_append.mp he with hc | hsing
    · exfalso
      have h2 := List.find?_eq_none.mp h e hc
      exact h2 (by simp [hk])
    · simpa using hsing
  | some e0 =>
    intro e he hk
    rcases List.mem_map.mp he with ⟨x, hx, hxe⟩
    by_cases hxk : x.key = k
    · rw [← hxe, if_pos hxk]
    · rw [← hxe, if_neg hxk]
      rw [← hxe, if_neg hxk] at hk
      exact absurd hk hxk

theorem cacheEnter_idem (c : ShippableCache) (k : ShippableCacheKey) (b : Bool) :
    cacheEnter (cacheEnter c k b) k b = cacheEnter c k b := by
  have hfind := cacheFind_cacheEnter c k b
  rw [cacheEnter]
  simp only [hfind]
  have hident : ∀ e ∈ cacheEnter c k b,
      (if e.key = k then ShippableCacheEntry.mk k b else e) = e := by
    intro e he
    by_cases hk : e.key = k
    · rw [if_pos hk]
      exact (cacheEnter_key_entries c k b e he hk).symm
    · rw [if_neg hk]
  calc (cacheEnter c k b).map (fun e => if e.key = k then ShippableCacheEntry.mk k b else e)
      = (cacheEnter c k b).map id := List.map_congr_left hident
    _ = cacheEnter c k b := List.map_id (cacheEnter c k b)

theorem invalidateFlush_self (c : ShippableCache) : invalidateFlush c c = .ok [] := by
  induction c with
  | nil => rfl
  | cons e rest ih =>
    have hfind : cacheFind (e :: rest) e.key = some e := by
      rw [cacheFind_cons, if_pos rfl]
    have hrem : cacheRemove (e :: rest) e.key = some rest := by
      rw [cacheRemove]
      simp only [hfind]
      congr 1
      rw [List.eraseP_cons]
      simp
    rw [invalidateFlush]
    simp only [hrem]
    exact ih

/-- C2: when the supplied extension list is empty, `is_shippable` returns
false immediately — the cache state is returned untouched (in particular
an uninitialized cache stays uninitialized, so no cache is created or
consulted and no entry is added) and zero dependency scans are
performed. -/
theorem is_shippable_empty_extension_list (o : Oid) (catalog : List Form_pg_depend)
    (cache : Option ShippableCache) :
    is_shippable o [] catalog cache = (false, cache, 0) := by
  rw [is_shippable, if_pos rfl]

/-- C3: memoization.  With a non-empty extension list and no cache entry
for `o`, a call to `is_shippable` performs exactly one dependency scan,
returns the resolver answer and stores it keyed by `o`; a subsequent call
with the same `o` (and the same list) on the resulting cache returns the
stored boolean with zero further dependency scans, leaving the cache
unchanged — so every later call repeats the same hit. -/
theorem is_shippable_memoizes (o : Oid) (E : List Oid) (catalog : List Form_pg_depend)
    (c : ShippableCache) (hE : E ≠ []) (hmiss : cacheFind c ⟨o⟩ = none) :
    is_shippable o E catalog (some c)
      = (lookup_shippable o E catalog,
         some (cacheEnter c ⟨o⟩ (lookup_shippable o E catalog)), 1)
    ∧ cacheFind (cacheEnter c ⟨o⟩ (lookup_shippable o E catalog)) ⟨o⟩
        = some (ShippableCacheEntry.mk ⟨o⟩ (lookup_shippable o E catalog))
    ∧ is_shippable o E catalog (some (cacheEnter c ⟨o⟩ (lookup_shippable o E catalog)))
        = (lookup_shippable o E catalog,
           some (cacheEnter c ⟨o⟩ (lookup_shippable o E catalog)), 0) := by
  have hfind := cacheFind_cacheEnter c ⟨o⟩ (lookup_shippable o E catalog)
  refine ⟨?_, hfind, ?_⟩
  · simp [is_shippable, hE, hmiss]
  · simp [is_shippable, hE, hfind]

/-- Witness for C3 at concrete inputs: with an empty active cache, the
first call for object 7 under declared set `[3]` scans once and caches
true; the second call hits the cache with zero scans. -/
theorem is_shippable_memoizes_witness :
    is_shippable 7 [3] [Form_pg_depend.mk 7 'e' 3] (some [])
      = (true, some [ShippableCacheEntry.mk ⟨7⟩ true], 1)
    ∧ is_shippable 7 [3] [Form_pg_depend.mk 7 'e' 3]
        (some [ShippableCacheEntry.mk ⟨7⟩ true])
      = (true, some [ShippableCacheEntry.mk ⟨7⟩ true], 0) := by
  have h := is_shippable_memoizes 7 [3] [Form_pg_depend.mk 7 'e' 3] []
    (by decide) rfl
  exact ⟨h.1, h.2.2⟩

/-- C4: `InvalidateShippableCacheCallback` removes every entry, leaving
the empty (but still active) cache, and on that empty cache the next
`is_shippable` call with a non-empty extension list performs exactly one
fresh dependency scan for any object, previously cached or not. -/
theorem invalidateAll_then_fresh_scan (c : ShippableCache) (o : Oid) (E : List Oid)
    (catalog : List Form_pg_depend) (hWF : cacheWF c) (hE : E ≠ []) :
    InvalidateShippableCacheCallback c = .ok []
    ∧ is_shippable o E catalog (some [])
        = (lookup_shippable o E catalog,
           some [ShippableCacheEntry.mk ⟨o⟩ (lookup_shippable o E catalog)], 1) := by
  refine ⟨invalidateFlush_self c, ?_⟩
  simp [is_shippable, hE, cacheFind, cacheEnter]

/-- Witness for C4 at concrete inputs: flushing a one-entry cache for
object 7 yields the empty cache, and the next call for object 7 scans
exactly once again. -/
theorem invalidateAll_then_fresh_scan_witness :
    InvalidateShippableCacheCallback [ShippableCacheEntry.mk ⟨7⟩ true] = .ok []
    ∧ is_shippable 7 [3] [Form_pg_depend.mk 7 'e' 3] (some [])
        = (true, some [ShippableCacheEntry.mk ⟨7⟩ true], 1) :=
  invalidateAll_then_fresh_scan [ShippableCacheEntry.mk ⟨7⟩ true] 7 [3]
    [Form_pg_depend.mk 7 'e' 3] (by decide) (by decide)

/-- C5: the cache key is the bare object id with no extension-set
component.  After a miss-path call under `E1` populates the entry for
`o`, a later call under any non-empty `E2` returns the boolean that was
computed under `E1` with zero dependency scans — the resolver is not
consulted even when it would answer differently for `(o, E2)` — and the
cache is left unchanged, so this persists until an invalidation. -/
theorem is_shippable_cache_ignores_extensions (o : Oid) (E1 E2 : List Oid)
    (catalog : List Form_pg_depend) (c : ShippableCache)
    (h1 : E1 ≠ []) (h2 : E2 ≠ []) (hmiss : cacheFind c ⟨o⟩ = none) :
    (is_shippable o E1 catalog (some c)).2.1
        = some (cacheEnter c ⟨o⟩ (lookup_shippable o E1 catalog))
    ∧ is_shippable o E2 catalog (some (cacheEnter c ⟨o⟩ (lookup_shippable o E1 catalog)))
        = (lookup_shippable o E1 catalog,
           some (cacheEnter c ⟨o⟩ (lookup_shippable o E1 catalog)), 0) := by
  have hfind := cacheFind_cacheEnter c ⟨o⟩ (lookup_shippable o E1 catalog)
  constructor
  · simp [is_shippable, h1, hmiss]
  · simp [is_shippable, h2, hfind]

/-- Witness for C5 at concrete inputs: object 1 belongs to extension 10,
so the first call under `E1 = [10]` caches true; the later call under
`E2 = [20]` returns true from the cache with zero scans even though the
resolver would answer false for `(1, [20])`. -/
theorem is_shippable_cache_ignores_extensions_witness :
    (is_shippable 1 [10] [Form_pg_depend.mk 1 'e' 10] (some [])).2.1
        = some [ShippableCacheEntry.mk ⟨1⟩ true]
    ∧ is_shippable 1 [20] [Form_pg_depend.mk 1 'e' 10]
        (some [ShippableCacheEntry.mk ⟨1⟩ true])
      = (true, some [ShippableCacheEntry.mk ⟨1⟩ true], 0)
    ∧ lookup_shippable 1 [20] [Form_pg_depend.mk 1 'e' 10] = false := by
  have h := is_shippable_cache_ignores_extensions 1 [10] [20]
    [Form_pg_depend.mk 1 'e' 10] [] (by decide) (by decide) rfl
  exact ⟨h.1, h.2, rfl⟩

/-- C8: idempotence of the two cache mutation paths — populating the
entry for a key with a boolean twice in succession produces the same
cache state as populating it once, and the full-flush invalidation run
from any state ends in the empty cache, from which running it again ends
in the empty cache as well. -/
theorem cache_mutations_idempotent (c : ShippableCache) (k : ShippableCacheKey) (b : Bool) :
    cacheEnter (cacheEnter c k b) k b = cacheEnter c k b
    ∧ InvalidateShippableCacheCallback c = .ok []
    ∧ InvalidateShippableCacheCallback ([] : ShippableCache) = .ok [] :=
  ⟨cacheEnter_idem c k b, invalidateFlush_self c, invalidateFlush_self []⟩

/-- C9: flush consistency.  Whenever the flush completes without raising
the "hash table corrupted" error it has removed every entry, and under
the well-formedness invariant (each enumerated key present exactly once)
the flush always completes: the error branch is unreachable and the
result is the empty cache. -/
theorem invalidateAll_flush_spec (c : ShippableCache) (hWF : cacheWF c) :
    InvalidateShippableCacheCallback c = .ok []
    ∧ ∀ d d2, InvalidateShippableCacheCallback d = .ok d2 → d2 = [] := by
  refine ⟨invalidateFlush_self c, ?_⟩
  intro d d2 h
  have hself : InvalidateShippableCacheCallback d = .ok [] := invalidateFlush_self d
  rw [hself] at h
  injection h with h2
  exact h2.symm

/-- Witness for C9 at a concrete input: flushing a well-formed two-entry
cache succeeds and leaves it empty. -/
theorem invalidateAll_flush_spec_witness :
    InvalidateShippableCacheCallback
      [ShippableCacheEntry.mk ⟨1⟩ true, ShippableCacheEntry.mk ⟨2⟩ false] = .ok [] :=
  (invalidateAll_flush_spec
    [ShippableCacheEntry.mk ⟨1⟩ true, ShippableCacheEntry.mk ⟨2⟩ false] (by decide)).1

/-! ### Lemmas about the extension-list parser -/

theorem mem_specDedupKeepFirst (xs : List Oid) (x : Oid) :
    x ∈ specDedupKeepFirst xs ↔ x ∈ xs := by
  induction xs with
  | nil => simp [specDedupKeepFirst]
  | cons a rest ih =>
    simp only [specDedupKeepFirst, List.mem_cons, List.mem_filter,
      decide_eq_true_eq, ne_eq]
    constructor
    · rintro (h | ⟨h, _⟩)
      · exact Or.inl h
      · exact Or.inr (ih.mp h)
    · rintro (h | h)
      · exact Or.inl h
      · by_cases hax : x = a
        · exact Or.inl hax
        · exact Or.inr ⟨ih.mpr h, hax⟩

theorem nodup_specDedupKeepFirst (xs : List Oid) : (specDedupKeepFirst xs).Nodup := by
  induction xs with
  | nil => simp [specDedupKeepFirst]
  | cons a rest ih =>
    rw [specDedupKeepFirst, List.nodup_cons]
    refine ⟨?_, ih.filter _⟩
    intro hmem
    rw [List.mem_filter] at hmem
    simp at hmem

theorem filter_not_member_of_mem (L acc : List Oid) (oid : Oid) (hmem : oid ∈ acc) :
    ((specDedupKeepFirst L).filter (fun y => y ≠ oid)).filter
        (fun y => !(list_member_oid acc y))
      = (specDedupKeepFirst L).filter (fun y => !(list_member_oid acc y)) := by
  rw [List.filter_filter]
  apply List.filter_congr
  intro y hy
  by_cases hyo : y = oid
  · subst hyo
    simp [list_member_oid_eq_decide, hmem]
  · simp [hyo]

theorem filter_not_member_append_single (L acc : List Oid) (oid : Oid) :
    ((specDedupKeepFirst L).filter (fun y => y ≠ oid)).filter
        (fun y => !(list_member_oid acc y))
      = (specDedupKeepFirst L).filter (fun y => !(list_member_oid (acc ++ [oid]) y)) := by
  rw [List.filter_filter]
  apply List.filter_congr
  intro y hy
  by_cases hyo : y = oid
  · subst hyo
    simp [list_member_oid_eq_decide, List.mem_append]
  · by_cases hya : y ∈ acc
    · simp [hyo, hya, list_member_oid_eq_decide, List.mem_append]
    · simp [hyo, hya, list_member_oid_eq_decide, List.mem_append]

theorem specDedup_filter_of_mem (L acc : List Oid) (oid : Oid) (h : oid ∈ acc) :
    (specDedupKeepFirst (oid :: L)).filter (fun y => !(list_member_oid acc y))
      = (specDedupKeepFirst L).filter (fun y => !(list_member_oid acc y)) := by
  rw [specDedupKeepFirst, List.filter_cons]
  have hb : (!(list_member_oid acc oid)) = false := by
    rw [list_member_oid_eq_decide]
    simp [h]
  rw [hb]
  simp only [Bool.false_eq_true, if_false]
  exact filter_not_member_of_mem L acc oid h

theorem specDedup_filter_of_not_mem (L acc : List Oid) (oid : Oid) (h : oid ∉ acc) :
    (specDedupKeepFirst (oid :: L)).filter (fun y => !(list_member_oid acc y))
      = oid :: (specDedupKeepFirst L).filter
          (fun y => !(list_member_oid (acc ++ [oid]) y)) := by
  rw [specDedupKeepFirst, List.filter_cons]
  have hb : (!(list_member_oid acc oid)) = true := by
    rw [list_member_oid_eq_decide]
    simp [h]
  rw [if_pos hb, filter_not_member_append_single]

theorem extensionListLoop_ok (get_extension_oid : String → Oid) (toks : List String)
    (acc : List Oid) (hknown : ∀ n ∈ toks, get_extension_oid n ≠ InvalidOid) :
    extensionListLoop get_extension_oid toks (some acc)
      = .ok (some (acc ++ (specDedupKeepFirst (toks.map get_extension_oid)).filter
          (fun y => !(list_member_oid acc y)))) := by
  induction toks generalizing acc with
  | nil => simp [extensionListLoop, specDedupKeepFirst]
  | cons t rest ih =>
    have ht := hknown t (List.mem_cons_self t rest)
    have hrest : ∀ n ∈ rest, get_extension_oid n ≠ InvalidOid :=
      fun n hn => hknown n (List.mem_cons_of_mem t hn)
    simp only [extensionListLoop]
    rw [if_neg ht]
    by_cases hmem : (get_extension_oid t) ∈ acc
    · have hb : list_member_oid acc (get_extension_oid t) = true :=
        (list_member_oid_iff acc (get_extension_oid t)).mpr hmem
      rw [if_pos hb, ih acc hrest, List.map_cons,
        specDedup_filter_of_mem _ acc _ hmem]
    · have hb : ¬(list_member_oid acc (get_extension_oid t) = true) := by
        rw [list_member_oid_iff]
        exact hmem
      rw [if_neg hb, ih (acc ++ [get_extension_oid t]) hrest, List.map_cons,
        specDedup_filter_of_not_mem _ acc _ hmem, List.append_assoc,
        List.singleton_append]

theorem extensionListLoop_unknown (get_extension_oid : String → Oid)
    (pre : List String) (bad : String) (post : List String)
    (hpre : ∀ n ∈ pre, get_extension_oid n ≠ InvalidOid)
    (hbad : get_extension_oid bad = InvalidOid) :
    ∀ acc, extensionListLoop get_extension_oid (pre ++ bad :: post) acc
      = .error (.UnknownExtension bad) := by
  induction pre with
  | nil =>
    intro acc
    rw [List.nil_append]
    simp [extensionListLoop, hbad]
  | cons t rest ih =>
    intro acc
    have ht := hpre t (List.mem_cons_self t rest)
    have ih2 := ih (fun n hn => hpre n (List.mem_cons_of_mem t hn))
    rw [List.cons_append]
    cases acc with
    | none => simp [extensionListLoop, ht, ih2]
    | some oids => simp [extensionListLoop, ht, ih2]

/-- A concrete installed-extension catalog used by the parser witnesses:
`ext_a` has oid 10, `ext_b` has oid 20, everything else is not
installed. -/
def getExtOidEx : String → Oid :=
  fun n => if n = "ext_a" then 10 else if n = "ext_b" then 20 else InvalidOid

/-- C6: parser deduplication and order.  When every comma-separated token
of the input names an installed extension, `extractExtensionList`
succeeds with the oid list obtained by keeping the first occurrence of
each named extension oid in token order and dropping its later
duplicates (`specDedupKeepFirst`); that list has no duplicate
(each identifier appears exactly once) and contains exactly the oids of
the named extensions. -/
theorem extractExtensionList_dedup (get_extension_oid : String → Oid) (raw : String)
    (toks : List String)
    (hsplit : SplitIdentifierString raw = some toks)
    (hknown : ∀ n ∈ toks, get_extension_oid n ≠ InvalidOid) :
    extractExtensionList get_extension_oid raw (some [])
      = .ok (some (specDedupKeepFirst (toks.map get_extension_oid)))
    ∧ (specDedupKeepFirst (toks.map get_extension_oid)).Nodup
    ∧ (∀ x, x ∈ specDedupKeepFirst (toks.map get_extension_oid)
        ↔ x ∈ toks.map get_extension_oid) := by
  refine ⟨?_, nodup_specDedupKeepFirst _, fun x => mem_specDedupKeepFirst _ x⟩
  rw [extractExtensionList]
  simp only [hsplit]
  rw [extensionListLoop_ok get_extension_oid toks [] hknown]
  simp [list_member_oid]

/-- Witness for C6 at the concrete input of the specification: parsing
"ext_a,ext_b,ext_a" over the example catalog yields exactly the two-oid
list `[10, 20]` — length 2, `ext_a` (oid 10) before `ext_b` (oid 20). -/
theorem extractExtensionList_dedup_witness :
    extractExtensionList getExtOidEx "ext_a,ext_b,ext_a" (some [])
      = .ok (some [10, 20])
    ∧ ([10, 20] : List Oid).Nodup := by
  have h := extractExtensionList_dedup getExtOidEx "ext_a,ext_b,ext_a"
    ["ext_a", "ext_b", "ext_a"] (by decide) (by decide)
  exact ⟨h.1, by decide⟩

/-- C7: parser error atomicity.  When the token list contains a token
naming no installed extension (here: the first such token `bad`, after a
prefix of known names), `extractExtensionList` fails with
`UnknownExtension` naming it, for every accumulator — including
validation-only mode — so no partial oid list is ever produced: the
`Except.error` result carries no `ExtensionSet`. -/
theorem extractExtensionList_unknown (get_extension_oid : String → Oid) (raw : String)
    (pre : List String) (bad : String) (post : List String)
    (acc : Option (List Oid))
    (hsplit : SplitIdentifierString raw = some (pre ++ bad :: post))
    (hpre : ∀ n ∈ pre, get_extension_oid n ≠ InvalidOid)
    (hbad : get_extension_oid bad = InvalidOid) :
    extractExtensionList get_extension_oid raw acc
      = .error (.UnknownExtension bad) := by
  rw [extractExtensionList]
  simp only [hsplit]
  exact extensionListLoop_unknown get_extension_oid pre bad post hpre hbad acc

/-- Witness for C7 at the concrete input of the specification: parsing
"ext_a,nonexistent_ext" over the example catalog fails with
`UnknownExtension "nonexistent_ext"` and produces no oid list. -/
theorem extractExtensionList_unknown_witness :
    extractExtensionList getExtOidEx "ext_a,nonexistent_ext" (some [])
      = .error (.UnknownExtension "nonexistent_ext") :=
  extractExtensionList_unknown getExtOidEx "ext_a,nonexistent_ext"
    ["ext_a"] "nonexistent_ext" [] (some []) (by decide) (by decide) (by decide)
